import Mathlib

/-!
Verification of the DBML comment/order round-trip engine
(`src/lib/dbml/dbml-comments/dbml-comments.ts`).

Text is modelled as `List Char` (one JS string = one `Text`); every function
below is a direct shallow embedding of the corresponding JavaScript code,
including the semantics of the regular expressions used there.
-/

abbrev Text := List Char

/-- The set matched by JavaScript's `\s` (and removed by `String.prototype.trim`). -/
def jsWhitespace (c : Char) : Bool :=
  c = ' ' || c = '\t' || c = '\n' || c == Char.ofNat 11 || c == Char.ofNat 12 ||
  c = '\r' || c = Char.ofNat 0xA0 || c = Char.ofNat 0x1680 ||
  (Char.ofNat 0x2000 ≤ c && c ≤ Char.ofNat 0x200A) ||
  c = Char.ofNat 0x2028 || c = Char.ofNat 0x2029 || c = Char.ofNat 0x202F ||
  c = Char.ofNat 0x205F || c = Char.ofNat 0x3000 || c = Char.ofNat 0xFEFF

/-- JavaScript line terminators (the characters `.` does not match in a regex). -/
def isLineTerm (c : Char) : Bool :=
  c = '\n' || c = '\r' || c = Char.ofNat 0x2028 || c = Char.ofNat 0x2029

/-- Embedding of `String.prototype.trim`. -/
def trim (t : Text) : Text :=
  ((t.dropWhile jsWhitespace).reverse.dropWhile jsWhitespace).reverse

/-- Embedding of `str.split('\n')`. -/
def splitNL : Text → List Text
  | [] => [[]]
  | c :: rest =>
    if c = '\n' then [] :: splitNL rest
    else
      match splitNL rest with
      | h :: t => (c :: h) :: t
      | [] => [[c]]

/-- Embedding of `arr.join('\n')`. -/
def joinNL : List Text → Text
  | [] => []
  | [l] => l
  | l :: l' :: ls => l ++ '\n' :: joinNL (l' :: ls)

theorem splitNL_ne_nil (t : Text) : splitNL t ≠ [] := by
  cases t with
  | nil => simp [splitNL]
  | cons c rest =>
    simp only [splitNL]
    split
    · simp
    · split <;> simp

theorem joinNL_splitNL (t : Text) : joinNL (splitNL t) = t := by
  induction t with
  | nil => rfl
  | cons c rest ih =>
    simp only [splitNL]
    split
    · rename_i hc
      subst hc
      rcases h : splitNL rest with _ | ⟨l, ls⟩
      · exact absurd h (splitNL_ne_nil rest)
      · rw [h] at ih
        simp only [joinNL]
        rw [ih]
        simp
    · rcases h : splitNL rest with _ | ⟨l, ls⟩
      · exact absurd h (splitNL_ne_nil rest)
      · rw [h] at ih
        cases ls with
        | nil => simp only [joinNL] at ih ⊢; rw [ih]
        | cons l' ls' => simp only [joinNL] at ih ⊢; rw [List.cons_append, ih]

/-- Number of occurrences of a character in a line (`(line.match(/{/g) || []).length`). -/
def countChar (c : Char) (t : Text) : Nat :=
  (t.filter (fun x => x = c)).length

/-- Embedding of `s.includes(pat)` (substring test). -/
def containsSub (pat : Text) : Text → Bool
  | [] => pat.isPrefixOf ([] : Text)
  | c :: rest => pat.isPrefixOf (c :: rest) || containsSub pat rest

/-- Case-insensitive literal match (a regex literal under the `i` flag);
returns the remainder of the input after the literal. -/
def dropCI : Text → Text → Option Text
  | [], s => some s
  | _ :: _, [] => none
  | p :: ps, c :: cs => if p.toLower = c.toLower then dropCI ps cs else none

/-- JavaScript `\w`. -/
def isWordChar (c : Char) : Bool :=
  ('a' ≤ c && c ≤ 'z') || ('A' ≤ c && c ≤ 'Z') || ('0' ≤ c && c ≤ '9') || c = '_'

/-- Matcher for `"([^"]+)"` at the head of the input: a double-quoted nonempty token.
Returns the token and the remainder after the closing quote. -/
def parseQuoted : Text → Option (Text × Text)
  | '"' :: rest =>
    let q := rest.takeWhile (fun c => ¬ c = '"')
    let r := rest.dropWhile (fun c => ¬ c = '"')
    if q = [] then none
    else
      match r with
      | '"' :: r2 => some (q, r2)
      | _ => none
  | _ => none

/-- Matcher for `(\w+)` at the head of the input. -/
def parseWord (t : Text) : Option (Text × Text) :=
  let w := t.takeWhile isWordChar
  if w = [] then none else some (w, t.drop w.length)

/-- The name alternative `(?:"([^"]+)"|(\w+))` of the table-header regex. -/
def parseNameAt (r : Text) : Option Text :=
  match parseQuoted r with
  | some (q, _) => some q
  | none => (parseWord r).map (·.1)

/-- The `(?:"([^"]+)"\.)?(?:"([^"]+)"|(\w+))` part of the table-header regex,
with the backtracking behaviour of the optional schema group. -/
def parseTableName (r : Text) : Option (Option Text × Text) :=
  match parseQuoted r with
  | some (s, r1) =>
    match r1 with
    | '.' :: r2 =>
      match parseNameAt r2 with
      | some n => some (some s, n)
      | none => (parseNameAt r).map (fun n => (none, n))
    | _ => (parseNameAt r).map (fun n => (none, n))
  | none => (parseNameAt r).map (fun n => (none, n))

/-- Embedding of `trimmedLine.match(/^Table\s+(?:"([^"]+)"\.)?(?:"([^"]+)"|(\w+))/i)`,
returning (captured schema, captured name). -/
def parseTableHeader (trimmed : Text) : Option (Option Text × Text) :=
  match dropCI ['t', 'a', 'b', 'l', 'e'] trimmed with
  | none => none
  | some r0 =>
    if (r0.takeWhile jsWhitespace) = [] then none
    else parseTableName (r0.dropWhile jsWhitespace)

/-- Embedding of `trimmedLine.match(/^Enum\s+/i)`. -/
def isEnumHeader (t : Text) : Bool :=
  match dropCI ['e', 'n', 'u', 'm'] t with
  | some (c :: _) => jsWhitespace c
  | _ => false

/-- Embedding of `trimmedLine.match(/^Ref\s*[:{]/i)`. -/
def isRefHeader (t : Text) : Bool :=
  match dropCI ['r', 'e', 'f'] t with
  | some r =>
    match r.dropWhile jsWhitespace with
    | ':' :: _ => true
    | '{' :: _ => true
    | _ => false
  | none => false

/-- Embedding of `trimmedLine.match(/^\/\/(.*)$/)`: the line is nothing but a `//` comment
(`.*` cannot cross a line terminator and `$` must reach the end). -/
def isSingleLineComment (t : Text) : Bool :=
  (t.take 2 = ['/', '/'] : Bool) && (t.drop 2).all (fun c => ¬ isLineTerm c)

/-- Embedding of `line.match(/^(.+?)(\/\/.*)$/)`: split a line at the first `//` that has at
least one character before it.  `.` cannot match a line terminator, so a line
containing one never matches. -/
def inlineGo (pre rest : Text) : Option (Text × Text) :=
  match rest with
  | [] => none
  | c :: rest' =>
    if (c :: rest').take 2 = ['/', '/'] then some (pre.reverse, c :: rest')
    else inlineGo (c :: pre) rest'

def inlineSplit (line : Text) : Option (Text × Text) :=
  if line.any isLineTerm then none
  else
    match line with
    | [] => none
    | c :: rest => inlineGo [c] rest

/-- Embedding of `codePart.match(/^"([^"]+)"/)`. -/
def parseFieldName (t : Text) : Option Text :=
  (parseQuoted t).map (·.1)

/-- The multi-line comment scan of `extractComments`: starting from the current
line, keep appending following lines (joined with `'\n'`) until a line
containing `*/` (inclusive) or the end of input; returns the joined comment and
the remaining lines after it. -/
def consumeMulti : Text → List Text → Text × List Text
  | line, rest =>
    if containsSub ['*', '/'] line then (line, rest)
    else
      match rest with
      | [] => (line, [])
      | l :: ls =>
        let r := consumeMulti l ls
        (line ++ '\n' :: r.1, r.2)

theorem consumeMulti_length (line : Text) (rest : List Text) :
    (consumeMulti line rest).2.length ≤ rest.length := by
  induction rest generalizing line with
  | nil => simp only [consumeMulti]; split <;> simp
  | cons l ls ih =>
    simp only [consumeMulti]
    split
    · simp
    · exact le_trans (ih l) (Nat.le_succ _)

/-! ### Data model -/

inductive CommentType
  | header | table | field | footer | inline
deriving DecidableEq

structure DBMLContext where
  tableName : Option Text := none
  fieldName : Option Text := none
deriving DecidableEq

/-- One record of the `DBMLComment` interface.  A missing `context` property is
`none`; a present property with a missing field has that field `none`. -/
structure DBMLComment where
  type : CommentType
  text : Text
  context : Option DBMLContext := none
deriving DecidableEq

structure DBMLTableOrder where
  tableName : Text
  schemaName : Option Text := none
deriving DecidableEq

/-- JavaScript `x || undefined` for a nullable string `x`. -/
def jsOrNone (o : Option Text) : Option Text :=
  match o with
  | none => none
  | some t => if t = [] then none else some t

/-- JavaScript `x || ''` for an optional string `x`. -/
def jsOrEmpty (o : Option Text) : Text :=
  match o with
  | none => []
  | some t => t

/-- Truthiness of a nullable string. -/
def truthyStr (o : Option Text) : Bool :=
  match o with
  | none => false
  | some t => ¬ t = []

/-! ### `extractTableOrder` -/

def extractTableOrder (dbml : Text) : List DBMLTableOrder :=
  (splitNL dbml).filterMap
    (fun line => (parseTableHeader (trim line)).map (fun p => ⟨p.2, p.1⟩))

/-! ### `extractComments` -/

structure ExtractState where
  comments : List DBMLComment := []
  currentTable : Option Text := none
  inTableBlock : Bool := false
  braceDepth : Int := 0
  foundFirstDefinition : Bool := false
  pendingComments : List Text := []
deriving DecidableEq

/-- The `if (tableMatch)` branch of `extractComments`. -/
def doTableCheck (st : ExtractState) (trimmed : Text) : ExtractState :=
  match parseTableHeader trimmed with
  | none => st
  | some (_, name) =>
    let st1 := { st with currentTable := some name, inTableBlock := true }
    let st2 :=
      if st1.pendingComments = [] then st1
      else
        { st1 with
          comments := st1.comments ++
            [if st1.foundFirstDefinition then
              ⟨CommentType.table, joinNL st1.pendingComments, some ⟨some name, none⟩⟩
            else
              ⟨CommentType.header, joinNL st1.pendingComments, none⟩],
          pendingComments := [] }
    { st2 with foundFirstDefinition := true }

/-- The `if (enumMatch)` branch of `extractComments`. -/
def doEnumCheck (st : ExtractState) (trimmed : Text) : ExtractState :=
  if isEnumHeader trimmed then
    let st1 := { st with foundFirstDefinition := true }
    if ¬ st1.pendingComments = [] ∧ ¬ truthyStr st1.currentTable then
      { st1 with
        comments := st1.comments ++
          [⟨CommentType.header, joinNL st1.pendingComments, none⟩],
        pendingComments := [] }
    else st1
  else st

/-- The `if (singleLineMatch)` branch of `extractComments`. -/
def doSingleCheck (st : ExtractState) (line trimmed : Text) : ExtractState :=
  if isSingleLineComment trimmed then
    if st.foundFirstDefinition = false then
      { st with pendingComments := st.pendingComments ++ [line] }
    else if st.inTableBlock = true ∧ st.braceDepth > 0 then
      { st with
        comments := st.comments ++
          [⟨CommentType.field, line, some ⟨jsOrNone st.currentTable, none⟩⟩] }
    else { st with pendingComments := st.pendingComments ++ [line] }
  else st

/-- The `if (inlineMatch && !singleLineMatch)` branch of `extractComments`. -/
def doInlineCheck (st : ExtractState) (line trimmed : Text) : ExtractState :=
  match inlineSplit line with
  | none => st
  | some (code, comment) =>
    if isSingleLineComment trimmed then st
    else
      match parseFieldName (trim code) with
      | some fn =>
        if st.inTableBlock = true then
          { st with
            comments := st.comments ++
              [⟨CommentType.inline, comment, some ⟨jsOrNone st.currentTable, some fn⟩⟩] }
        else st
      | none => st

/-- Classification of a consumed multi-line comment in `extractComments`. -/
def classifyMulti (st : ExtractState) (mc : Text) : ExtractState :=
  if st.foundFirstDefinition = false then
    { st with pendingComments := st.pendingComments ++ [mc] }
  else if st.inTableBlock = true ∧ st.braceDepth > 0 then
    { st with
      comments := st.comments ++
        [⟨CommentType.field, mc, some ⟨jsOrNone st.currentTable, none⟩⟩] }
  else { st with pendingComments := st.pendingComments ++ [mc] }

/-- End-of-line bookkeeping: update the brace depth with the line's brace
counts and close the table block if depth returned to 0 on a `}`. -/
def finishLine (st : ExtractState) (line : Text) : ExtractState :=
  let opens := countChar '{' line
  let closes := countChar '}' line
  let d := st.braceDepth + (opens : Int) - (closes : Int)
  let st1 := { st with braceDepth := d }
  if st1.inTableBlock = true ∧ d = 0 ∧ closes > 0 then
    { st1 with inTableBlock := false, currentTable := none }
  else st1

/-- The pattern checks of one loop iteration of `extractComments`, in source
order (table, enum, single-line, inline). -/
def stepChecks (st : ExtractState) (line : Text) : ExtractState :=
  let trimmed := trim line
  doInlineCheck (doSingleCheck (doEnumCheck (doTableCheck st trimmed) trimmed) line trimmed) line trimmed

/-- One full loop iteration of `extractComments` on a line that does not start
a multi-line comment. -/
def processLine (st : ExtractState) (line : Text) : ExtractState :=
  finishLine (stepChecks st line) line

/-- The main loop of `extractComments`.  The fuel argument only serves to make
the recursion structural; it is always called with at least as much fuel as
there are lines, which is enough because every iteration consumes at least one
line (`consumeMulti_length`). -/
def extractLoop : Nat → ExtractState → List Text → ExtractState
  | _, st, [] => st
  | 0, st, _ :: _ => st
  | fuel + 1, st, line :: rest =>
    let st4 := stepChecks st line
    if (trim line).take 2 = ['/', '*'] then
      let r := consumeMulti line rest
      extractLoop fuel (finishLine (classifyMulti st4 r.1) line) r.2
    else
      extractLoop fuel (finishLine st4 line) rest

/-- Final flush of `extractComments`. -/
def endFlush (st : ExtractState) : List DBMLComment :=
  if ¬ st.pendingComments = [] then
    st.comments ++
      [if st.foundFirstDefinition then
        ⟨CommentType.footer, joinNL st.pendingComments, none⟩
      else
        ⟨CommentType.header, joinNL st.pendingComments, none⟩]
  else st.comments

def extractComments (dbml : Text) : List DBMLComment :=
  endFlush (extractLoop (splitNL dbml).length {} (splitNL dbml))

/-! ### `mergeComments` -/

def ctxTableName (c : DBMLComment) : Option Text :=
  match c.context with
  | some ctx => ctx.tableName
  | none => none

def ctxFieldName (c : DBMLComment) : Option Text :=
  match c.context with
  | some ctx => ctx.fieldName
  | none => none

/-- Reading of `comment.context?.tableName` as a truthy value. -/
def truthyName (c : DBMLComment) : Option Text :=
  jsOrNone (ctxTableName c)

/-- The final contents of `tableComments.get(k)` in `mergeComments`
(`undefined` is represented by `[]`, which the code treats identically). -/
def tableTexts (C : List DBMLComment) (k : Text) : List Text :=
  (C.filter (fun c => decide (c.type = CommentType.table) &&
    decide (truthyName c = some k))).map (·.text)

/-- The final contents of `fieldComments.get(k)` in `mergeComments`. -/
def fieldTexts (C : List DBMLComment) (k : Text) : List Text :=
  (C.filter (fun c => decide (c.type = CommentType.field) &&
    decide (truthyName c = some k))).map (·.text)

/-- The `"table.field"` key an inline comment is registered under, when its
`tableName` and `fieldName` are both truthy. -/
def inlineKeyOf (c : DBMLComment) : Option Text :=
  match jsOrNone (ctxTableName c), jsOrNone (ctxFieldName c) with
  | some tn, some fn => some (tn ++ '.' :: fn)
  | _, _ => none

/-- The final contents of `inlineFieldComments.get(k)` (`Map.set` overwrites:
the last inline comment for a key wins). -/
def inlineGet (C : List DBMLComment) (k : Text) : Option Text :=
  ((C.filter (fun c => decide (c.type = CommentType.inline) &&
    decide (inlineKeyOf c = some k))).map (·.text)).getLast?

structure MergeState where
  result : List Text := []
  currentTable : Option Text := none
  inTableBlock : Bool := false
  braceDepth : Int := 0
  tableFieldCommentsAdded : Bool := false
deriving DecidableEq

/-- The `if (tableMatch)` branch of the `mergeComments` loop. -/
def mergeTableStep (C : List DBMLComment) (st : MergeState) (trimmed : Text) : MergeState :=
  match parseTableHeader trimmed with
  | none => st
  | some (_, name) =>
    { st with
      currentTable := some name,
      inTableBlock := true,
      tableFieldCommentsAdded := false,
      result := st.result ++ tableTexts C name }

/-- The field-comment injection step of the `mergeComments` loop. -/
def mergeFieldStep (C : List DBMLComment) (st : MergeState) : MergeState :=
  if st.inTableBlock && decide (st.braceDepth > 0) &&
      !st.tableFieldCommentsAdded && truthyStr st.currentTable then
    { st with
      result := st.result ++ fieldTexts C (jsOrEmpty st.currentTable),
      tableFieldCommentsAdded := true }
  else st

/-- Brace-depth update and table-exit check shared by both exits of the
`mergeComments` loop body. -/
def mergeFinish (st : MergeState) (opens closes : Nat) : MergeState :=
  let d := st.braceDepth + (opens : Int) - (closes : Int)
  let st1 := { st with braceDepth := d }
  if st1.inTableBlock && decide (d = 0) && decide (0 < closes) then
    { st1 with inTableBlock := false, currentTable := none }
  else st1

/-- The inline-comment lookup of the `mergeComments` loop: the comment text to
append to this field line, if any. -/
def mergeInlineLookup (C : List DBMLComment) (st2 : MergeState) (trimmed line : Text) :
    Option Text :=
  if st2.inTableBlock && truthyStr st2.currentTable then
    match parseFieldName trimmed with
    | some fn =>
      match inlineGet C (jsOrEmpty st2.currentTable ++ '.' :: fn) with
      | some t =>
        if decide (¬ t = []) && !containsSub ['/', '/'] line then some t
        else none
      | none => none
    | none => none
  else none

/-- One loop iteration of `mergeComments`. -/
def mergeLine (C : List DBMLComment) (st : MergeState) (line : Text) : MergeState :=
  let trimmed := trim line
  let opens := countChar '{' line
  let closes := countChar '}' line
  let st1 := mergeTableStep C st trimmed
  let st2 := mergeFieldStep C st1
  match mergeInlineLookup C st2 trimmed line with
  | some t => mergeFinish { st2 with result := st2.result ++ [line ++ ' ' :: t] } opens closes
  | none => mergeFinish { st2 with result := st2.result ++ [line] } opens closes

def mergeComments (regen : Text) (comments : List DBMLComment) : Text :=
  if comments.length = 0 then regen
  else
    let lines := splitNL regen
    let headerTexts := (comments.filter (fun c => decide (c.type = CommentType.header))).map (·.text)
    let res0 := headerTexts ++ (if ¬ headerTexts = [] ∧ lines.length > 0 then [([] : Text)] else [])
    let stF := lines.foldl (mergeLine comments) { result := res0 }
    let footerTexts := (comments.filter (fun c => decide (c.type = CommentType.footer))).map (·.text)
    let resF := if ¬ footerTexts = [] then stF.result ++ [([] : Text)] ++ footerTexts else stF.result
    joinNL resF

/-! ### `parseDBMLIntoBlocks` -/

inductive BlockType
  | enum | table | ref | other
deriving DecidableEq

structure DBMLBlock where
  type : BlockType
  content : Text
  tableName : Option Text := none
  schemaName : Option Text := none
deriving DecidableEq

structure PartitionState where
  blocks : List DBMLBlock := []
  currentBlock : List Text := []
  currentType : Option BlockType := none
  currentTableName : Option Text := none
  currentSchemaName : Option Text := none
  braceDepth : Int := 0
deriving DecidableEq

/-- The `flushBlock` closure of `parseDBMLIntoBlocks`. -/
def flushBlock (st : PartitionState) : PartitionState :=
  let blocks :=
    match st.currentType with
    | some ty =>
      if ¬ st.currentBlock = [] then
        st.blocks ++ [⟨ty, joinNL st.currentBlock, st.currentTableName, st.currentSchemaName⟩]
      else st.blocks
    | none => st.blocks
  { blocks := blocks, currentBlock := [], currentType := none,
    currentTableName := none, currentSchemaName := none, braceDepth := st.braceDepth }

/-- One loop iteration of `parseDBMLIntoBlocks`. -/
def partitionLine (st : PartitionState) (line : Text) : PartitionState :=
  let trimmed := trim line
  let opens := countChar '{' line
  let closes := countChar '}' line
  let st1 :=
    if st.braceDepth = 0 then
      let stA :=
        match parseTableHeader trimmed with
        | some (sch, name) =>
          let f := flushBlock st
          { f with currentType := some BlockType.table,
                   currentSchemaName := sch, currentTableName := some name }
        | none => st
      let stB :=
        if isEnumHeader trimmed then
          let f := flushBlock stA
          { f with currentType := some BlockType.enum }
        else stA
      if isRefHeader trimmed then
        let f := flushBlock stB
        { f with currentType := some BlockType.ref }
      else stB
    else st
  let st2 :=
    match st1.currentType with
    | some _ => { st1 with currentBlock := st1.currentBlock ++ [line] }
    | none =>
      if ¬ trimmed = [] then
        { st1 with blocks := st1.blocks ++ [(⟨BlockType.other, line, none, none⟩ : DBMLBlock)] }
      else if st1.blocks.length > 0 then
        { st1 with blocks := st1.blocks ++ [(⟨BlockType.other, [], none, none⟩ : DBMLBlock)] }
      else st1
  let d := st2.braceDepth + (opens : Int) - (closes : Int)
  let st3 := { st2 with braceDepth := d }
  if st3.currentType.isSome && decide (d = 0) && decide (closes > 0) then flushBlock st3 else st3

def parseDBMLIntoBlocks (dbml : Text) : List DBMLBlock :=
  (flushBlock ((splitNL dbml).foldl partitionLine {})).blocks

/-! ### `reorderDBML` -/

/-- Embedding of the expression building a full key from an order entry
(schema-dot-table when the schema name is truthy, else the bare table name). -/
def entryFullKey (e : DBMLTableOrder) : Text :=
  match e.schemaName with
  | some s => if ¬ s = [] then s ++ '.' :: e.tableName else e.tableName
  | none => e.tableName

/-- Whether an original-order entry writes the given key into `orderMap`. -/
def entryHits (e : DBMLTableOrder) (k : Text) : Bool :=
  decide (entryFullKey e = k) || decide (e.tableName = k)

/-- Value of `orderMap.get k` after all `orderMap.set` calls: the index of the last
entry that wrote this key (last write wins). -/
def orderMapGetAux : List DBMLTableOrder → Nat → Text → Option Nat
  | [], _, _ => none
  | e :: rest, i, k =>
    match orderMapGetAux rest (i + 1) k with
    | some j => some j
    | none => if entryHits e k then some i else none

def orderMapGet (order : List DBMLTableOrder) (k : Text) : Option Nat :=
  orderMapGetAux order 0 k

def undefinedText : Text := ['u', 'n', 'd', 'e', 'f', 'i', 'n', 'e', 'd']

/-- The sort key string of a table block
(`a.schemaName ? `${a.schemaName}.${a.tableName}` : a.tableName || ''`). -/
def blockSortKey (b : DBMLBlock) : Text :=
  match b.schemaName with
  | some s =>
    if ¬ s = [] then
      s ++ '.' :: (match b.tableName with | some t => t | none => undefinedText)
    else jsOrEmpty b.tableName
  | none => jsOrEmpty b.tableName

/-- Embedding of `orderMap.get(aKey) ?? orderMap.get(a.tableName || '') ?? Infinity`
(`none` represents `Infinity`). -/
def blockOrder (order : List DBMLTableOrder) (b : DBMLBlock) : Option Nat :=
  match orderMapGet order (blockSortKey b) with
  | some i => some i
  | none => orderMapGet order (jsOrEmpty b.tableName)

/-- The comparator `aOrder - bOrder` viewed as "a sorts no later than b"
(`Infinity - Infinity` is `NaN`, which a stable sort treats as equality). -/
def keyLE : Option Nat → Option Nat → Bool
  | some a, some b => decide (a ≤ b)
  | some _, none => true
  | none, some _ => false
  | none, none => true

def blockLE (order : List DBMLTableOrder) (a b : DBMLBlock) : Prop :=
  keyLE (blockOrder order a) (blockOrder order b) = true

instance (order : List DBMLTableOrder) : DecidableRel (blockLE order) :=
  fun _ _ => instDecidableEqBool _ _

/-- Embedding of `[...tableBlocks].sort(comparator)`: a stable sort by the comparator. -/
def sortTableBlocks (order : List DBMLTableOrder) (tbs : List DBMLBlock) : List DBMLBlock :=
  List.insertionSort (blockLE order) tbs

/-- The last newline inside the leading whitespace run (position + 1), if the
run contains at least one newline. -/
def lastNLInRun : Text → Option Nat
  | [] => none
  | c :: t =>
    if jsWhitespace c then
      match lastNLInRun t with
      | some k => some (k + 1)
      | none => if c = '\n' then some 0 else none
    else none

/-- Number of newlines inside the leading whitespace run. -/
def nlInRun : Text → Nat
  | [] => 0
  | c :: t =>
    if jsWhitespace c then (if c = '\n' then 1 else 0) + nlInRun t
    else 0

/-- Given text that follows a leading `'\n'`, the number of characters the
rest of a `/\n\s*\n\s*\n/` match consumes (through the last newline of the
whitespace run), if the pattern matches here. -/
def blankMatchExtra (rest : Text) : Option Nat :=
  if 2 ≤ nlInRun rest then
    match lastNLInRun rest with
    | some j => some (j + 1)
    | none => none
  else none

/-- Embedding of `result.replace(/\n\s*\n\s*\n/g, '\n\n')`: scan left to right, replace
each leftmost match by two newlines, continue after the match.  The fuel
argument only makes the recursion structural; each step consumes at least one
character, so fuel equal to the length is always enough. -/
def collapseNLF : Nat → Text → Text
  | _, [] => []
  | 0, t => t
  | fuel + 1, c :: rest =>
    if c = '\n' then
      match blankMatchExtra rest with
      | some m => '\n' :: '\n' :: collapseNLF fuel (rest.drop m)
      | none => '\n' :: collapseNLF fuel rest
    else c :: collapseNLF fuel rest

def collapseNL (t : Text) : Text := collapseNLF t.length t

def enumBlocksOf (regen : Text) : List DBMLBlock :=
  (parseDBMLIntoBlocks regen).filter (fun b => decide (b.type = BlockType.enum))

def tableBlocksOf (regen : Text) : List DBMLBlock :=
  (parseDBMLIntoBlocks regen).filter (fun b => decide (b.type = BlockType.table))

def refBlocksOf (regen : Text) : List DBMLBlock :=
  (parseDBMLIntoBlocks regen).filter (fun b => decide (b.type = BlockType.ref))

def reorderDBML (regen : Text) (originalOrder : List DBMLTableOrder) : Text :=
  let enumBlocks := enumBlocksOf regen
  let tableBlocks := tableBlocksOf regen
  let refBlocks := refBlocksOf regen
  let sorted := sortTableBlocks originalOrder tableBlocks
  let parts :=
    (enumBlocks.map (·.content)) ++
    (if enumBlocks.length > 0 ∧ sorted.length > 0 then [([] : Text)] else []) ++
    (sorted.map (·.content)) ++
    (if refBlocks.length > 0 then ([] : Text) :: refBlocks.map (·.content) else [])
  let r := collapseNL (joinNL parts)
  if r.getLast? = some '\n' then r else r ++ ['\n']

/-! ### Claim theorems -/

/-- C1: for every input text, `mergeComments(text, [])` with an empty comment
list returns the text unchanged, character for character. -/
theorem mergeComments_empty_noop (text : Text) : mergeComments text [] = text := rfl

/-- C5: on the concrete input `"// header\n\nTable users {\n  \"id\" int // pk comment\n}\n"`,
`extractComments` returns exactly a `Header` record `"// header"` with no
anchor followed by an `Inline` record `"// pk comment"` anchored to table
`users`, field `id`; and `extractTableOrder` returns exactly one entry
`users` with no schema name. -/
theorem extract_concrete_scenario :
    extractComments ("// header\n\nTable users \x7b\n  \"id\" int // pk comment\n\x7d\n".data) =
      [⟨CommentType.header, "// header".data, none⟩,
       ⟨CommentType.inline, "// pk comment".data, some ⟨some "users".data, some "id".data⟩⟩] ∧
    extractTableOrder ("// header\n\nTable users \x7b\n  \"id\" int // pk comment\n\x7d\n".data) =
      [⟨"users".data, none⟩] := by
  constructor <;> rfl

/-- C6: on empty input every operation degrades to the documented degenerate
value: `extractTableOrder` and `extractComments` return `[]` and
`reorderDBML` returns a single newline (all three are total functions, so no
error path exists). -/
theorem empty_input_degenerate :
    extractTableOrder ([] : Text) = [] ∧
    extractComments ([] : Text) = [] ∧
    reorderDBML ([] : Text) [] = ['\n'] := by
  refine ⟨rfl, rfl, rfl⟩

theorem ensureNL_getLast (r : Text) :
    (if r.getLast? = some '\n' then r else r ++ ['\n']).getLast? = some '\n' := by
  split
  · assumption
  · exact List.getLast?_concat _

/-- C2 (amended): for every regenerated input text and every original order
list, the text returned by `reorderDBML` ends with at least one trailing
newline character (never zero); it does not always end with exactly one. -/
theorem reorderDBML_ends_with_newline (regen : Text) (order : List DBMLTableOrder) :
    (reorderDBML regen order).getLast? = some '\n' := by
  simp only [reorderDBML]
  exact ensureNL_getLast _

/-- C2 (counterexample): on the input `"Table a {\n\n"` with an empty order
list, `reorderDBML` returns the input unchanged, which ends with two newline
characters — refuting "ends with exactly one trailing newline". -/
theorem reorderDBML_two_trailing_newlines :
    reorderDBML ("Table a \x7b\n\n".data) [] = "Table a \x7b\n\n".data ∧
    List.isSuffixOf ['\n', '\n'] (reorderDBML ("Table a \x7b\n\n".data) []) = true := by
  refine ⟨rfl, rfl⟩

theorem orderMapGetAux_none (l : List DBMLTableOrder) (i : Nat) (k : Text)
    (h : ∀ e ∈ l, entryHits e k = false) : orderMapGetAux l i k = none := by
  induction l generalizing i with
  | nil => rfl
  | cons e rest ih =>
    simp only [orderMapGetAux]
    rw [ih (i + 1) (fun e' he' => h e' (List.mem_cons_of_mem _ he'))]
    simp [h e (List.mem_cons_self _ _)]

theorem orderMapGetAux_append (l1 l2 : List DBMLTableOrder) (i : Nat) (k : Text) :
    orderMapGetAux (l1 ++ l2) i k =
      match orderMapGetAux l2 (i + l1.length) k with
      | some j => some j
      | none => orderMapGetAux l1 i k := by
  induction l1 generalizing i with
  | nil =>
    simp only [List.nil_append, List.length_nil, Nat.add_zero, orderMapGetAux]
    cases orderMapGetAux l2 i k <;> rfl
  | cons e rest ih =>
    simp only [List.cons_append, orderMapGetAux, List.length_cons, List.append_eq]
    rw [ih (i + 1)]
    have harith : i + 1 + rest.length = i + (rest.length + 1) := by omega
    rw [harith]
    cases orderMapGetAux l2 (i + (rest.length + 1)) k <;>
      cases orderMapGetAux rest (i + 1) k <;> simp

/-- C9: the order lookup built by `reorderDBML` is last-write-wins.  If the
entry at position `pre.length` is the last entry of the original order list
that writes the key `n` (in particular when several entries share the bare
table name `n`), then looking `n` up yields that entry's index, the index of
any earlier entry is unreachable through that key, and a regenerated
schema-less table block named `n` gets exactly that index as its sort key. -/
theorem orderMap_last_write_wins (pre post : List DBMLTableOrder) (ej : DBMLTableOrder)
    (n : Text) (i : Nat) (content : Text)
    (hname : ej.tableName = n)
    (hpost : ∀ e ∈ post, entryHits e n = false)
    (hi : i < pre.length) :
    orderMapGet (pre ++ ej :: post) n = some pre.length ∧
    orderMapGet (pre ++ ej :: post) n ≠ some i ∧
    blockOrder (pre ++ ej :: post) ⟨BlockType.table, content, some n, none⟩ = some pre.length := by
  have hmain : orderMapGet (pre ++ ej :: post) n = some pre.length := by
    unfold orderMapGet
    rw [orderMapGetAux_append]
    simp only [orderMapGetAux, Nat.zero_add]
    rw [orderMapGetAux_none post (pre.length + 1) n hpost]
    simp [entryHits, hname]
  refine ⟨hmain, ?_, ?_⟩
  · rw [hmain]
    intro hcontra
    have : pre.length = i := by injection hcontra
    omega
  · simp only [blockOrder, blockSortKey, jsOrEmpty]
    rw [hmain]

theorem keyLE_total (x y : Option Nat) : keyLE x y = true ∨ keyLE y x = true := by
  cases x <;> cases y <;> simp [keyLE] <;> omega

theorem keyLE_trans {x y z : Option Nat} (h1 : keyLE x y = true) (h2 : keyLE y z = true) :
    keyLE x z = true := by
  cases x <;> cases y <;> cases z <;> simp_all [keyLE] <;> omega

theorem keyLE_none_left {x : Option Nat} (h : keyLE none x = true) : x = none := by
  cases x <;> simp_all [keyLE]

instance blockLE_total (order : List DBMLTableOrder) : IsTotal DBMLBlock (blockLE order) :=
  ⟨fun a b => keyLE_total (blockOrder order a) (blockOrder order b)⟩

instance blockLE_trans (order : List DBMLTableOrder) : IsTrans DBMLBlock (blockLE order) :=
  ⟨fun _ _ _ => keyLE_trans⟩

/-- C4: (i) the sorted table-block list of `reorderDBML` is a permutation of
the regenerated table blocks; (ii) it is sorted by the looked-up original
index, with unmatched blocks (key `none`, i.e. `Infinity`) sorting after all
matched ones; (iii) once an unmatched block appears, everything after it is
unmatched — matched blocks all come first; (iv) unmatched table blocks keep
exactly their relative order from the regenerated text; and (v) on the
concrete scenario, original order `[A, B, C]` with regenerated blocks
`[C, A, D, B]` yields table order `[A, B, C, D]` with unmatched `D` last. -/
theorem reorder_table_order (regen : Text) (order : List DBMLTableOrder) :
    (sortTableBlocks order (tableBlocksOf regen)).Perm (tableBlocksOf regen) ∧
    List.Pairwise (blockLE order) (sortTableBlocks order (tableBlocksOf regen)) ∧
    (∀ a b : DBMLBlock, List.Sublist [a, b] (sortTableBlocks order (tableBlocksOf regen)) →
      (blockOrder order a).isNone = true → (blockOrder order b).isNone = true) ∧
    (sortTableBlocks order (tableBlocksOf regen)).filter
        (fun b => (blockOrder order b).isNone) =
      (tableBlocksOf regen).filter (fun b => (blockOrder order b).isNone) ∧
    reorderDBML ("Table C \x7b\n\x7d\nTable A \x7b\n\x7d\nTable D \x7b\n\x7d\nTable B \x7b\n\x7d".data)
        [⟨"A".data, none⟩, ⟨"B".data, none⟩, ⟨"C".data, none⟩] =
      "Table A \x7b\n\x7d\nTable B \x7b\n\x7d\nTable C \x7b\n\x7d\nTable D \x7b\n\x7d\n".data := by
  have hperm := List.perm_insertionSort (blockLE order) (tableBlocksOf regen)
  have hpair : List.Pairwise (blockLE order) (sortTableBlocks order (tableBlocksOf regen)) :=
    List.sorted_insertionSort (blockLE order) (tableBlocksOf regen)
  refine ⟨hperm, hpair, ?_, ?_, rfl⟩
  · intro a b hsub ha
    have hle : blockLE order a b := List.pairwise_iff_forall_sublist.mp hpair hsub
    have hnone : blockOrder order a = none := Option.isNone_iff_eq_none.mp ha
    rw [blockLE, hnone] at hle
    rw [keyLE_none_left hle]
    rfl
  · have hpairf : List.Pairwise (blockLE order)
        ((tableBlocksOf regen).filter (fun b => (blockOrder order b).isNone)) := by
      apply List.pairwise_iff_forall_sublist.mpr
      intro a b hsub
      have hma := hsub.subset (List.mem_cons_self a [b])
      have hmb := hsub.subset (List.mem_cons_of_mem a (List.mem_cons_self b []))
      have hpa := (List.mem_filter.mp hma).2
      have hpb := (List.mem_filter.mp hmb).2
      have hna : blockOrder order a = none := Option.isNone_iff_eq_none.mp hpa
      have hnb : blockOrder order b = none := Option.isNone_iff_eq_none.mp hpb
      rw [blockLE, hna, hnb]
      rfl
    have hsubl : List.Sublist
        ((tableBlocksOf regen).filter (fun b => (blockOrder order b).isNone))
        (sortTableBlocks order (tableBlocksOf regen)) :=
      List.sublist_insertionSort hpairf (List.filter_sublist _)
    have hsubf := hsubl.filter (fun b => (blockOrder order b).isNone)
    rw [List.filter_filter] at hsubf
    have hself : ((tableBlocksOf regen).filter
        (fun b => ((blockOrder order b).isNone && (blockOrder order b).isNone))) =
        ((tableBlocksOf regen).filter (fun b => (blockOrder order b).isNone)) := by
      apply List.filter_congr
      intro x _
      cases (blockOrder order x).isNone <;> rfl
    rw [hself] at hsubf
    have hlen : ((sortTableBlocks order (tableBlocksOf regen)).filter
        (fun b => (blockOrder order b).isNone)).length =
        ((tableBlocksOf regen).filter (fun b => (blockOrder order b).isNone)).length :=
      (hperm.filter _).length_eq
    exact (hsubf.eq_of_length hlen.symm).symm

/-- Three consecutive newlines start here, i.e. a run of at least two
consecutive blank lines. -/
def startsTriple (t : Text) : Bool := t.take 3 = ['\n', '\n', '\n']

/-- The text contains three consecutive newlines somewhere, i.e. a run of two
or more consecutive blank lines. -/
def hasTripleNL : Text → Bool
  | [] => false
  | c :: rest => startsTriple (c :: rest) || hasTripleNL rest

theorem head_nl_lastNL_isSome {t : Text} (h : t.head? = some '\n') :
    (lastNLInRun t).isSome = true := by
  cases t with
  | nil => simp at h
  | cons c t' =>
    simp only [List.head?_cons, Option.some.injEq] at h
    subst h
    simp only [lastNLInRun]
    have hws : jsWhitespace '\n' = true := by decide
    rw [hws]
    simp only [if_true]
    cases lastNLInRun t' <;> simp

theorem lastNL_drop_head {rest : Text} {j : Nat} (h : lastNLInRun rest = some j) :
    (rest.drop (j + 1)).head? ≠ some '\n' := by
  induction rest generalizing j with
  | nil => simp [lastNLInRun] at h
  | cons c t ih =>
    simp only [lastNLInRun] at h
    by_cases hws : jsWhitespace c = true
    · rw [if_pos hws] at h
      cases hlt : lastNLInRun t with
      | some k =>
        rw [hlt] at h
        have hj : j = k + 1 := by
          simp only [Option.some.injEq] at h
          omega
        subst hj
        simpa using ih hlt
      | none =>
        rw [hlt] at h
        by_cases hc : c = '\n'
        · rw [if_pos hc] at h
          have hj : j = 0 := by
            simp only [Option.some.injEq] at h
            omega
          subst hj
          simp only [List.drop_succ_cons, List.drop_zero]
          intro hhead
          have := head_nl_lastNL_isSome hhead
          rw [hlt] at this
          simp at this
        · rw [if_neg hc] at h
          simp at h
    · rw [if_neg hws] at h
      simp at h

theorem nlInRun_pos_lastNL_isSome {t : Text} (h : 1 ≤ nlInRun t) :
    (lastNLInRun t).isSome = true := by
  induction t with
  | nil => simp [nlInRun] at h
  | cons c t' ih =>
    simp only [nlInRun] at h
    by_cases hws : jsWhitespace c = true
    · rw [if_pos hws] at h
      simp only [lastNLInRun]
      rw [if_pos hws]
      by_cases hc : c = '\n'
      · cases hl : lastNLInRun t' <;> simp [hc]
      · rw [if_neg hc] at h
        simp only [Nat.zero_add] at h
        have := ih h
        cases hl : lastNLInRun t'
        · rw [hl] at this; simp at this
        · simp
    · rw [if_neg hws] at h
      omega

theorem blankMatchExtra_some_drop_head {rest : Text} {m : Nat}
    (h : blankMatchExtra rest = some m) : (rest.drop m).head? ≠ some '\n' := by
  simp only [blankMatchExtra] at h
  by_cases h2 : 2 ≤ nlInRun rest
  · rw [if_pos h2] at h
    cases hl : lastNLInRun rest with
    | some j =>
      rw [hl] at h
      simp only [Option.some.injEq] at h
      subst h
      exact lastNL_drop_head hl
    | none => rw [hl] at h; simp at h
  · rw [if_neg h2] at h
    simp at h

theorem blankMatchExtra_none_shift {rest2 : Text}
    (h : blankMatchExtra ('\n' :: rest2) = none) :
    blankMatchExtra rest2 = none ∧ rest2.head? ≠ some '\n' := by
  have hcount : nlInRun ('\n' :: rest2) < 2 := by
    by_contra hge
    push_neg at hge
    have := nlInRun_pos_lastNL_isSome (t := '\n' :: rest2) (by omega)
    simp only [blankMatchExtra, if_pos hge] at h
    cases hl : lastNLInRun ('\n' :: rest2)
    · rw [hl] at this; simp at this
    · rw [hl] at h; simp at h
  have hnl : nlInRun ('\n' :: rest2) = 1 + nlInRun rest2 := by
    simp [nlInRun, show jsWhitespace '\n' = true from by decide]
  have hz : nlInRun rest2 = 0 := by omega
  constructor
  · simp [blankMatchExtra, hz]
  · intro hhead
    cases rest2 with
    | nil => simp at hhead
    | cons c t =>
      simp only [List.head?_cons, Option.some.injEq] at hhead
      subst hhead
      simp [nlInRun, show jsWhitespace '\n' = true from by decide] at hz

theorem collapseNLF_head (f : Nat) (s : Text) (hf : s.length ≤ f) :
    (collapseNLF f s).head? = s.head? := by
  cases f with
  | zero =>
    have : s = [] := List.length_eq_zero.mp (Nat.le_zero.mp hf)
    subst this
    rfl
  | succ f' =>
    cases s with
    | nil => rfl
    | cons c rest =>
      simp only [collapseNLF]
      by_cases hc : c = '\n'
      · rw [if_pos hc]
        subst hc
        cases blankMatchExtra rest <;> rfl
      · rw [if_neg hc]
        rfl

theorem startsTriple_cons (c : Char) (t : Text) :
    startsTriple (c :: t) = (decide (c = '\n') && decide (t.take 2 = ['\n', '\n'])) := by
  simp only [startsTriple, List.take_succ_cons]
  by_cases hc : c = '\n'
  · subst hc
    simp
  · simp [hc]

theorem hasTriple_cons (c : Char) (t : Text) :
    hasTripleNL (c :: t) = (startsTriple (c :: t) || hasTripleNL t) := rfl

theorem take2_head {t : Text} (h : t.take 2 = ['\n', '\n']) : t.head? = some '\n' := by
  cases t with
  | nil => simp at h
  | cons c rest =>
    simp only [List.take_succ_cons, List.cons.injEq] at h
    simp [h.1]

theorem collapseNLF_noTriple (f : Nat) (s : Text) (hf : s.length ≤ f) :
    hasTripleNL (collapseNLF f s) = false := by
  induction f generalizing s with
  | zero =>
    have : s = [] := List.length_eq_zero.mp (Nat.le_zero.mp hf)
    subst this
    rfl
  | succ f' ih =>
    cases s with
    | nil => rfl
    | cons c rest =>
      have hrest : rest.length ≤ f' := by
        simp only [List.length_cons] at hf
        omega
      simp only [collapseNLF]
      by_cases hc : c = '\n'
      · rw [if_pos hc]
        cases hbm : blankMatchExtra rest with
        | some m =>
          have hdrop : (rest.drop m).length ≤ f' := le_trans (by rw [List.length_drop]; omega) hrest
          have hX := ih (rest.drop m) hdrop
          have hXhead : (collapseNLF f' (rest.drop m)).head? ≠ some '\n' := by
            rw [collapseNLF_head f' _ hdrop]
            exact blankMatchExtra_some_drop_head hbm
          have hXnothead : (collapseNLF f' (rest.drop m)).take 1 ≠ ['\n'] := by
            intro htk
            apply hXhead
            cases hcl : collapseNLF f' (rest.drop m) with
            | nil => rw [hcl] at htk; simp at htk
            | cons a b =>
              rw [hcl] at htk
              simp only [List.take_succ_cons, List.take_zero, List.cons.injEq] at htk
              simp [hcl, htk.1]
          rw [hasTriple_cons, hasTriple_cons, hX, startsTriple_cons, startsTriple_cons]
          have h1 : decide (((collapseNLF f' (rest.drop m)).take 2) = ['\n', '\n']) = false := by
            simp only [decide_eq_false_iff_not]
            intro hcontra
            exact hXhead (take2_head hcontra)
          have h2 : decide ((('\n' :: collapseNLF f' (rest.drop m)).take 2) = ['\n', '\n']) = false := by
            simp only [List.take_succ_cons, decide_eq_false_iff_not]
            intro hcontra
            simp only [List.cons.injEq, true_and] at hcontra
            exact hXnothead hcontra
          rw [h1, h2]
          simp
        | none =>
          have hY := ih rest hrest
          rw [hasTriple_cons, hY, startsTriple_cons]
          have h2 : decide (((collapseNLF f' rest).take 2) = ['\n', '\n']) = false := by
            simp only [decide_eq_false_iff_not]
            intro hcontra
            cases rest with
            | nil =>
              rw [show collapseNLF f' ([] : Text) = [] from by cases f' <;> rfl] at hcontra
              simp at hcontra
            | cons c2 rest2 =>
              by_cases hc2 : c2 = '\n'
              · subst hc2
                obtain ⟨hbm2, hh2⟩ := blankMatchExtra_none_shift hbm
                cases f' with
                | zero => simp only [List.length_cons] at hrest; omega
                | succ f'' =>
                  rw [show collapseNLF (f'' + 1) ('\n' :: rest2) = '\n' :: collapseNLF f'' rest2 from by
                    simp [collapseNLF, hbm2]] at hcontra
                  simp only [List.take_succ_cons, List.cons.injEq, true_and] at hcontra
                  apply hh2
                  rw [← collapseNLF_head f'' rest2 (by
                    simp only [List.length_cons] at hrest; omega)]
                  cases hcl : collapseNLF f'' rest2 with
                  | nil => rw [hcl] at hcontra; simp at hcontra
                  | cons a b =>
                    rw [hcl] at hcontra
                    simp only [List.take_succ_cons, List.take_zero, List.cons.injEq] at hcontra
                    simp [hcl, hcontra.1]
              · have hhd : (collapseNLF f' (c2 :: rest2)).head? = some c2 := by
                  rw [collapseNLF_head f' _ hrest]
                  rfl
                have hh := take2_head hcontra
                rw [hhd] at hh
                simp only [Option.some.injEq] at hh
                exact hc2 hh
          rw [h2]
          simp
      · rw [if_neg hc]
        have hY := ih rest hrest
        rw [hasTriple_cons, hY, startsTriple_cons]
        simp [hc]

theorem collapseNL_noTriple (t : Text) : hasTripleNL (collapseNL t) = false :=
  collapseNLF_noTriple t.length t le_rfl

theorem hasTriple_append_nl (r : Text) (h1 : hasTripleNL r = false)
    (h2 : r.getLast? ≠ some '\n') : hasTripleNL (r ++ ['\n']) = false := by
  induction r with
  | nil => rfl
  | cons c t ih =>
    rw [List.cons_append, hasTriple_cons]
    cases t with
    | nil =>
      have hc : c ≠ '\n' := by
        intro hcc
        subst hcc
        exact h2 rfl
      simp [startsTriple, hasTripleNL, hc]
    | cons t1 t2 =>
      rw [hasTriple_cons] at h1
      simp only [Bool.or_eq_false_iff] at h1
      obtain ⟨hst, hht⟩ := h1
      have h2' : (t1 :: t2).getLast? ≠ some '\n' := by
        rw [List.getLast?_cons_cons] at h2
        exact h2
      have hIH := ih hht h2'
      have hst' : startsTriple (c :: ((t1 :: t2) ++ ['\n'])) = false := by
        cases t2 with
        | nil =>
          have ht1 : t1 ≠ '\n' := by
            intro hh
            subst hh
            exact h2 rfl
          simp [startsTriple, ht1]
        | cons t3 t4 =>
          simp only [List.cons_append, startsTriple, List.take_succ_cons,
            List.take_zero] at hst ⊢
          exact hst
      rw [hst', hIH]
      rfl

theorem ensureNL_noTriple (r : Text) (h : hasTripleNL r = false) :
    hasTripleNL (if r.getLast? = some '\n' then r else r ++ ['\n']) = false := by
  split
  · exact h
  · rename_i hne
    exact hasTriple_append_nl r h hne

/-- C3: the output of `reorderDBML` never contains three consecutive newline
characters, i.e. never two or more consecutive blank lines — every blank-line
run of the reassembled text is collapsed to at most one blank line; and on a
concrete block whose body contains a run of three blank lines, the run is
collapsed to exactly one blank line. -/
theorem reorder_collapses_blank_runs (regen : Text) (order : List DBMLTableOrder) :
    hasTripleNL (reorderDBML regen order) = false ∧
    reorderDBML ("Table a \x7b\n\n\n\nx\n\x7d".data) [] = "Table a \x7b\n\nx\n\x7d\n".data := by
  refine ⟨?_, rfl⟩
  simp only [reorderDBML]
  exact ensureNL_noTriple _ (collapseNL_noTriple _)

/-! ### The anchor invariant of `extractComments` (C7) -/

theorem parseQuoted_ne_nil {t : Text} {q r : Text} (h : parseQuoted t = some (q, r)) :
    q ≠ [] := by
  rw [parseQuoted.eq_def] at h
  split at h
  · dsimp only at h
    split at h
    · simp at h
    · rename_i hq
      split at h
      · simp only [Option.some.injEq, Prod.mk.injEq] at h
        rw [← h.1]
        exact hq
      · simp at h
  · simp at h

theorem parseWord_ne_nil {t w r : Text} (h : parseWord t = some (w, r)) : w ≠ [] := by
  simp only [parseWord] at h
  split at h
  · simp at h
  · rename_i hw
    simp only [Option.some.injEq, Prod.mk.injEq] at h
    rw [← h.1]
    exact hw

theorem parseNameAt_ne_nil {r : Text} {n : Text} (h : parseNameAt r = some n) : n ≠ [] := by
  simp only [parseNameAt] at h
  split at h
  · rename_i q r2 hq
    simp only [Option.some.injEq] at h
    rw [← h]
    exact parseQuoted_ne_nil hq
  · simp only [Option.map_eq_some'] at h
    obtain ⟨⟨w, r2⟩, hw, hn⟩ := h
    rw [← hn]
    exact parseWord_ne_nil hw

theorem parseTableName_ne_nil {r : Text} {s : Option Text} {n : Text}
    (h : parseTableName r = some (s, n)) : n ≠ [] := by
  simp only [parseTableName] at h
  split at h
  · rename_i q r1 hq
    split at h
    · rename_i r2
      split at h
      · rename_i n2 hn2
        simp only [Option.some.injEq, Prod.mk.injEq] at h
        rw [← h.2]
        exact parseNameAt_ne_nil hn2
      · simp only [Option.map_eq_some'] at h
        obtain ⟨n2, hn2, hpair⟩ := h
        injection hpair with h1 h2
        rw [← h2]
        exact parseNameAt_ne_nil hn2
    · simp only [Option.map_eq_some'] at h
      obtain ⟨n2, hn2, hpair⟩ := h
      injection hpair with h1 h2
      rw [← h2]
      exact parseNameAt_ne_nil hn2
  · simp only [Option.map_eq_some'] at h
    obtain ⟨n2, hn2, hpair⟩ := h
    injection hpair with h1 h2
    rw [← h2]
    exact parseNameAt_ne_nil hn2

theorem parseTableHeader_name_ne_nil {t : Text} {s : Option Text} {n : Text}
    (h : parseTableHeader t = some (s, n)) : n ≠ [] := by
  simp only [parseTableHeader] at h
  split at h
  · simp at h
  · split at h
    · simp at h
    · exact parseTableName_ne_nil h

/-- The per-kind anchor shape stated by the specification. -/
def AnchorInvariant (c : DBMLComment) : Prop :=
  match c.type with
  | CommentType.header => c.context = none
  | CommentType.footer => c.context = none
  | CommentType.table => ∃ n, c.context = some ⟨some n, none⟩
  | CommentType.field => ∃ n, c.context = some ⟨some n, none⟩
  | CommentType.inline => ∃ n f, c.context = some ⟨some n, some f⟩

/-- Scanner-state invariant: inside a table block the current table anchor is
a nonempty name, and every emitted record has the right anchor shape. -/
def GoodState (st : ExtractState) : Prop :=
  (st.inTableBlock = true → ∃ n, st.currentTable = some n ∧ n ≠ []) ∧
  ∀ c ∈ st.comments, AnchorInvariant c

theorem goodState_doTableCheck {st : ExtractState} (trimmed : Text) (h : GoodState st) :
    GoodState (doTableCheck st trimmed) := by
  simp only [doTableCheck]
  split
  · exact h
  · rename_i s name hparse
    have hname : name ≠ [] := parseTableHeader_name_ne_nil hparse
    constructor
    · intro _
      split <;> exact ⟨name, rfl, hname⟩
    · intro c hc
      split at hc
      · exact h.2 c hc
      · simp only [List.mem_append, List.mem_singleton] at hc
        rcases hc with hc | hc
        · exact h.2 c hc
        · subst hc
          split
          · exact ⟨name, rfl⟩
          · rfl

theorem goodState_doEnumCheck {st : ExtractState} (trimmed : Text) (h : GoodState st) :
    GoodState (doEnumCheck st trimmed) := by
  simp only [doEnumCheck]
  split
  · split
    · constructor
      · exact h.1
      · intro c hc
        simp only [List.mem_append, List.mem_singleton] at hc
        rcases hc with hc | hc
        · exact h.2 c hc
        · subst hc
          rfl
    · exact ⟨h.1, h.2⟩
  · exact h

theorem goodState_doSingleCheck {st : ExtractState} (line trimmed : Text) (h : GoodState st) :
    GoodState (doSingleCheck st line trimmed) := by
  simp only [doSingleCheck]
  split
  · split
    · exact ⟨h.1, h.2⟩
    · split
      · rename_i hcond
        constructor
        · exact h.1
        · intro c hc
          simp only [List.mem_append, List.mem_singleton] at hc
          rcases hc with hc | hc
          · exact h.2 c hc
          · subst hc
            obtain ⟨n, hn, hne⟩ := h.1 hcond.1
            refine ⟨n, ?_⟩
            simp [jsOrNone, hn, hne]
      · exact ⟨h.1, h.2⟩
  · exact h

theorem goodState_doInlineCheck {st : ExtractState} (line trimmed : Text) (h : GoodState st) :
    GoodState (doInlineCheck st line trimmed) := by
  simp only [doInlineCheck]
  split
  · exact h
  · split
    · exact h
    · split
      · rename_i fn hfn
        split
        · rename_i hin
          constructor
          · exact h.1
          · intro c hc
            simp only [List.mem_append, List.mem_singleton] at hc
            rcases hc with hc | hc
            · exact h.2 c hc
            · subst hc
              obtain ⟨n, hn, hne⟩ := h.1 hin
              refine ⟨n, fn, ?_⟩
              simp [jsOrNone, hn, hne]
        · exact h
      · exact h

theorem goodState_classifyMulti {st : ExtractState} (mc : Text) (h : GoodState st) :
    GoodState (classifyMulti st mc) := by
  simp only [classifyMulti]
  split
  · exact ⟨h.1, h.2⟩
  · split
    · rename_i hcond
      constructor
      · exact h.1
      · intro c hc
        simp only [List.mem_append, List.mem_singleton] at hc
        rcases hc with hc | hc
        · exact h.2 c hc
        · subst hc
          obtain ⟨n, hn, hne⟩ := h.1 hcond.1
          refine ⟨n, ?_⟩
          simp [jsOrNone, hn, hne]
    · exact ⟨h.1, h.2⟩

theorem goodState_finishLine {st : ExtractState} (line : Text) (h : GoodState st) :
    GoodState (finishLine st line) := by
  simp only [finishLine]
  split
  · exact ⟨by intro hcontra; simp at hcontra, h.2⟩
  · exact ⟨h.1, h.2⟩

theorem goodState_stepChecks {st : ExtractState} (line : Text) (h : GoodState st) :
    GoodState (stepChecks st line) :=
  goodState_doInlineCheck _ _
    (goodState_doSingleCheck _ _ (goodState_doEnumCheck _ (goodState_doTableCheck _ h)))

theorem goodState_extractLoop (fuel : Nat) (st : ExtractState) (ls : List Text)
    (h : GoodState st) : GoodState (extractLoop fuel st ls) := by
  induction fuel generalizing st ls with
  | zero =>
    cases ls with
    | nil => exact h
    | cons line rest => exact h
  | succ f ih =>
    cases ls with
    | nil => exact h
    | cons line rest =>
      simp only [extractLoop]
      split
      · exact ih _ _ (goodState_finishLine _ (goodState_classifyMulti _ (goodState_stepChecks _ h)))
      · exact ih _ _ (goodState_finishLine _ (goodState_stepChecks _ h))

/-- C7: every record produced by `extractComments` satisfies the anchor
invariant: `inline` records carry both a table name and a field name,
`table` and `field` records carry a table name and no field name, and
`header`/`footer` records carry no anchor at all. -/
theorem extract_anchor_invariant (text : Text) (c : DBMLComment)
    (hc : c ∈ extractComments text) : AnchorInvariant c := by
  have hinit : GoodState ({} : ExtractState) := by
    constructor
    · intro hcontra
      simp at hcontra
    · intro c hc
      simp at hc
  have hloop := goodState_extractLoop (splitNL text).length {} (splitNL text) hinit
  simp only [extractComments, endFlush] at hc
  split at hc
  · simp only [List.mem_append, List.mem_singleton] at hc
    rcases hc with hc | hc
    · exact hloop.2 c hc
    · subst hc
      split
      · rfl
      · rfl
  · exact hloop.2 c hc

/-- Witness for C7 at a concrete input. -/
theorem extract_anchor_invariant_witness :
    AnchorInvariant ⟨CommentType.header, "// x".data, none⟩ :=
  extract_anchor_invariant ("// x".data) ⟨CommentType.header, "// x".data, none⟩ (by decide)

/-! ### Flushing on a table-header line (C8) -/

theorem dropCI_head_eq {p : Char} {ps : Text} {c : Char} {cs r : Text}
    (h : dropCI (p :: ps) (c :: cs) = some r) : p.toLower = c.toLower := by
  simp only [dropCI] at h
  split at h
  · assumption
  · simp at h

theorem parseTableHeader_head {t : Text} {x : Option Text × Text}
    (h : parseTableHeader t = some x) :
    ∃ c cs, t = c :: cs ∧ c.toLower = 't' := by
  cases t with
  | nil =>
    simp only [parseTableHeader] at h
    simp [dropCI] at h
  | cons c cs =>
    refine ⟨c, cs, rfl, ?_⟩
    simp only [parseTableHeader] at h
    cases hd : dropCI ['t', 'a', 'b', 'l', 'e'] (c :: cs) with
    | none => rw [hd] at h; simp at h
    | some r => exact (dropCI_head_eq hd).symm

theorem tableHeader_not_single {t : Text} {x : Option Text × Text}
    (h : parseTableHeader t = some x) : isSingleLineComment t = false := by
  obtain ⟨c, cs, ht, hc⟩ := parseTableHeader_head h
  subst ht
  simp only [isSingleLineComment]
  have hslash : ¬ (c = '/') := by
    intro hcc
    subst hcc
    simp at hc
  have : ((c :: cs).take 2 = ['/', '/'] : Bool) = false := by
    simp only [List.take_succ_cons, decide_eq_false_iff_not]
    intro hcontra
    simp only [List.cons.injEq] at hcontra
    exact hslash hcontra.1
  rw [this]
  rfl

theorem tableHeader_not_enum {t : Text} {x : Option Text × Text}
    (h : parseTableHeader t = some x) : isEnumHeader t = false := by
  obtain ⟨c, cs, ht, hc⟩ := parseTableHeader_head h
  subst ht
  simp only [isEnumHeader]
  have : dropCI ['e', 'n', 'u', 'm'] (c :: cs) = none := by
    simp only [dropCI]
    rw [if_neg]
    intro hcontra
    rw [hc] at hcontra
    simp at hcontra
  rw [this]

theorem inlineGo_append {pre rest code cm : Text}
    (h : inlineGo pre rest = some (code, cm)) : code ++ cm = pre.reverse ++ rest := by
  induction rest generalizing pre with
  | nil => simp [inlineGo] at h
  | cons c rest' ih =>
    simp only [inlineGo] at h
    split at h
    · simp only [Option.some.injEq, Prod.mk.injEq] at h
      rw [← h.1, ← h.2]
    · have := ih h
      rw [this, List.reverse_cons]
      simp

theorem inlineSplit_append {line code cm : Text}
    (h : inlineSplit line = some (code, cm)) : line = code ++ cm := by
  simp only [inlineSplit] at h
  split at h
  · simp at h
  · cases line with
    | nil => simp at h
    | cons c rest =>
      have := inlineGo_append h
      simp only [List.reverse_singleton, List.singleton_append] at this
      exact this.symm

theorem trim_head (t : Text) : (trim t).head? = (t.dropWhile jsWhitespace).head? := by
  unfold trim
  cases hd : t.dropWhile jsWhitespace with
  | nil => simp
  | cons c u =>
    have hc : jsWhitespace c = false := by
      have := List.head?_dropWhile_not jsWhitespace t
      rw [hd] at this
      simpa using this
    rw [List.reverse_cons, List.dropWhile_append]
    split
    · rw [show List.dropWhile jsWhitespace [c] = [c] from by simp [List.dropWhile, hc]]
      rfl
    · rw [List.reverse_append]
      rfl

theorem dropWhile_of_append_left {code suffix : Text}
    (hne : code.dropWhile jsWhitespace ≠ []) :
    (code ++ suffix).dropWhile jsWhitespace = code.dropWhile jsWhitespace ++ suffix := by
  rw [List.dropWhile_append]
  split
  · rename_i hemp
    rw [List.isEmpty_iff] at hemp
    exact absurd hemp hne
  · rfl

/-- On a table-header line the inline-comment branch of `extractComments` does
nothing: the code part cannot start with a double quote. -/
theorem doInlineCheck_table_header {st : ExtractState} {line : Text}
    {x : Option Text × Text} (hmatch : parseTableHeader (trim line) = some x) :
    doInlineCheck st line (trim line) = st := by
  simp only [doInlineCheck]
  split
  · rfl
  · rename_i code cm hsplit
    rw [if_neg (by rw [tableHeader_not_single hmatch]; simp)]
    cases hfn : parseFieldName (trim code) with
    | none => rfl
    | some fn =>
      exfalso
      obtain ⟨c, cs, ht, hc⟩ := parseTableHeader_head hmatch
      have hline : line = code ++ cm := inlineSplit_append hsplit
      have hcodefn : (trim code).head? = some '"' := by
        simp only [parseFieldName] at hfn
        cases htc : trim code with
        | nil => rw [htc] at hfn; simp [parseQuoted] at hfn
        | cons a b =>
          rw [htc] at hfn
          by_cases ha : a = '"'
          · rw [ha]; rfl
          · exfalso
            rw [parseQuoted.eq_def] at hfn
            split at hfn
            · rename_i heq
              injection heq with h1 _
              exact ha h1
            · simp at hfn
      have hcode_ne : code.dropWhile jsWhitespace ≠ [] := by
        intro hemp
        rw [trim_head, hemp] at hcodefn
        simp at hcodefn
      have hheads : (trim line).head? = (trim code).head? := by
        rw [trim_head, trim_head, hline, dropWhile_of_append_left hcode_ne]
        cases hdc : code.dropWhile jsWhitespace with
        | nil => exact absurd hdc hcode_ne
        | cons a b => simp
      rw [ht, hcodefn] at hheads
      simp only [List.head?_cons, Option.some.injEq] at hheads
      rw [hheads] at hc
      simp at hc

theorem finishLine_comments (st : ExtractState) (line : Text) :
    (finishLine st line).comments = st.comments ∧
    (finishLine st line).pendingComments = st.pendingComments := by
  simp only [finishLine]
  split
  · exact ⟨rfl, rfl⟩
  · exact ⟨rfl, rfl⟩

/-- C8: when a line matching the table-header pattern is processed while the
pending-comment buffer is non-empty, the buffer is flushed as exactly one
record: a `header` record (lines joined with newline) if no definition has
been seen yet, otherwise a `table` record anchored to the table name
introduced on this very line; the buffer is empty afterwards. -/
theorem table_header_flushes_pending (st : ExtractState) (line : Text)
    (sch : Option Text) (name : Text)
    (hpend : st.pendingComments ≠ [])
    (hmatch : parseTableHeader (trim line) = some (sch, name)) :
    (processLine st line).comments =
      st.comments ++
        [if st.foundFirstDefinition then
          ⟨CommentType.table, joinNL st.pendingComments, some ⟨some name, none⟩⟩
        else ⟨CommentType.header, joinNL st.pendingComments, none⟩] ∧
    (processLine st line).pendingComments = [] := by
  have hst1 : doTableCheck st (trim line) =
      { st with
        currentTable := some name, inTableBlock := true, foundFirstDefinition := true,
        comments := st.comments ++
          [if st.foundFirstDefinition then
            ⟨CommentType.table, joinNL st.pendingComments, some ⟨some name, none⟩⟩
          else ⟨CommentType.header, joinNL st.pendingComments, none⟩],
        pendingComments := [] } := by
    simp only [doTableCheck, hmatch]
    rw [if_neg hpend]
  have henum : isEnumHeader (trim line) = false := tableHeader_not_enum hmatch
  have hsingle : isSingleLineComment (trim line) = false := tableHeader_not_single hmatch
  have hsteps : stepChecks st line = doTableCheck st (trim line) := by
    simp only [stepChecks]
    rw [doInlineCheck_table_header hmatch]
    simp only [doSingleCheck, hsingle]
    simp only [doEnumCheck, henum]
    simp
  simp only [processLine]
  rw [(finishLine_comments _ _).1, (finishLine_comments _ _).2, hsteps, hst1]
  exact ⟨rfl, rfl⟩

/-- Witness for C8 at a concrete state and line. -/
theorem table_header_flushes_pending_witness :
    (processLine ⟨[], none, false, 0, false, ["// note".data]⟩ ("Table t \x7b".data)).comments =
      [⟨CommentType.header, "// note".data, none⟩] ∧
    (processLine ⟨[], none, false, 0, false, ["// note".data]⟩ ("Table t \x7b".data)).pendingComments =
      [] :=
  table_header_flushes_pending ⟨[], none, false, 0, false, ["// note".data]⟩ ("Table t \x7b".data)
    none ("t".data) (by decide) (by decide)

/-- Witness for C9 at a concrete duplicated order list. -/
theorem orderMap_last_write_wins_witness :
    orderMapGet [⟨"t".data, none⟩, ⟨"u".data, none⟩, ⟨"t".data, none⟩] ("t".data) = some 2 ∧
    orderMapGet [⟨"t".data, none⟩, ⟨"u".data, none⟩, ⟨"t".data, none⟩] ("t".data) ≠ some 0 ∧
    blockOrder [⟨"t".data, none⟩, ⟨"u".data, none⟩, ⟨"t".data, none⟩]
      ⟨BlockType.table, "Table t \x7b\n\x7d".data, some "t".data, none⟩ = some 2 :=
  orderMap_last_write_wins [⟨"t".data, none⟩, ⟨"u".data, none⟩] [] ⟨"t".data, none⟩
    ("t".data) 0 ("Table t \x7b\n\x7d".data) (by decide) (by decide) (by decide)

/-! ### Frame property of `mergeComments` (C10) -/

/-- The table name captured from a line by the table-header pattern. -/
def parsedName (l : Text) : Option Text :=
  (parseTableHeader (trim l)).map (·.2)

/-- The field name captured from a line by the leading-quoted-token pattern. -/
def lineFieldName (l : Text) : Option Text :=
  parseFieldName (trim l)

/-- The `"table.field"` inline key formed from two optional names. -/
def mkDotKey : Option Text → Option Text → Option Text
  | some n, some f => some (n ++ '.' :: f)
  | _, _ => none

/-- The comment list has no effect on any line anchored at table name `n`:
no table or field record is bucketed under `n`, and no inline record is
bucketed under `n.f` for a field name `f` that occurs on a line of `Tls`. -/
def SafeAnchor (C : List DBMLComment) (Tls : List Text) (n : Text) : Prop :=
  tableTexts C n = [] ∧ fieldTexts C n = [] ∧
  ∀ l ∈ Tls, ∀ fn, lineFieldName l = some fn → inlineGet C (n ++ '.' :: fn) = none

theorem truthyStr_some {o : Option Text} (h : truthyStr o = true) :
    ∃ n, o = some n := by
  cases o with
  | none => simp [truthyStr] at h
  | some t => exact ⟨t, rfl⟩

theorem jsOrNone_eq_some {o : Option Text} {n : Text} (h : jsOrNone o = some n) :
    o = some n := by
  cases o with
  | none => simp [jsOrNone] at h
  | some t =>
    simp only [jsOrNone] at h
    split at h
    · simp at h
    · exact h

theorem mergeFinish_frame (st : MergeState) (opens closes : Nat) :
    (mergeFinish st opens closes).result = st.result ∧
    (∀ n, (mergeFinish st opens closes).currentTable = some n →
      st.currentTable = some n) := by
  simp only [mergeFinish]
  split
  · exact ⟨rfl, by intro n hn; simp at hn⟩
  · exact ⟨rfl, fun n hn => hn⟩

theorem mergeTableStep_frame (C : List DBMLComment) (Tls : List Text) (st : MergeState)
    (line : Text)
    (hline : ∀ n, parsedName line = some n → SafeAnchor C Tls n)
    (hct : ∀ n, st.currentTable = some n → SafeAnchor C Tls n) :
    (mergeTableStep C st (trim line)).result = st.result ∧
    (∀ n, (mergeTableStep C st (trim line)).currentTable = some n → SafeAnchor C Tls n) := by
  simp only [mergeTableStep]
  split
  · exact ⟨rfl, hct⟩
  · rename_i s name hp
    have hsafe : SafeAnchor C Tls name := hline name (by simp [parsedName, hp])
    constructor
    · simp [hsafe.1]
    · intro n hn
      simp only [Option.some.injEq] at hn
      rw [← hn]
      exact hsafe

theorem mergeFieldStep_frame (C : List DBMLComment) (Tls : List Text) (st1 : MergeState)
    (hct : ∀ n, st1.currentTable = some n → SafeAnchor C Tls n) :
    (mergeFieldStep C st1).result = st1.result ∧
    (mergeFieldStep C st1).currentTable = st1.currentTable ∧
    (mergeFieldStep C st1).inTableBlock = st1.inTableBlock := by
  simp only [mergeFieldStep]
  split
  · rename_i hcond
    simp only [Bool.and_eq_true] at hcond
    obtain ⟨n, hn⟩ := truthyStr_some hcond.2
    have hsafe := hct n hn
    refine ⟨?_, rfl, rfl⟩
    rw [hn]
    simp [jsOrEmpty, hsafe.2.1]
  · exact ⟨rfl, rfl, rfl⟩

theorem mergeInlineLookup_none (C : List DBMLComment) (Tls : List Text) (st2 : MergeState)
    (line : Text) (hlineT : line ∈ Tls)
    (hct : ∀ n, st2.currentTable = some n → SafeAnchor C Tls n) :
    mergeInlineLookup C st2 (trim line) line = none := by
  simp only [mergeInlineLookup]
  split
  · rename_i hcond
    simp only [Bool.and_eq_true] at hcond
    obtain ⟨n, hn⟩ := truthyStr_some hcond.2
    have hsafe := hct n hn
    cases hfn : parseFieldName (trim line) with
    | none => rfl
    | some fn =>
      have hkey : inlineGet C (jsOrEmpty st2.currentTable ++ '.' :: fn) = none := by
        rw [hn]
        exact hsafe.2.2 line hlineT fn (by simp [lineFieldName, hfn])
      simp [hkey]
  · rfl

theorem mergeLine_frame (C : List DBMLComment) (Tls : List Text) (st : MergeState)
    (line : Text)
    (hline : ∀ n, parsedName line = some n → SafeAnchor C Tls n)
    (hlineT : line ∈ Tls)
    (hct : ∀ n, st.currentTable = some n → SafeAnchor C Tls n) :
    (mergeLine C st line).result = st.result ++ [line] ∧
    (∀ n, (mergeLine C st line).currentTable = some n → SafeAnchor C Tls n) := by
  have h1 := mergeTableStep_frame C Tls st line hline hct
  have h2 := mergeFieldStep_frame C Tls (mergeTableStep C st (trim line)) h1.2
  have hct2 : ∀ n, (mergeFieldStep C (mergeTableStep C st (trim line))).currentTable = some n →
      SafeAnchor C Tls n := by
    intro n hn
    rw [h2.2.1] at hn
    exact h1.2 n hn
  have hinl := mergeInlineLookup_none C Tls
    (mergeFieldStep C (mergeTableStep C st (trim line))) line hlineT hct2
  simp only [mergeLine, hinl]
  have hfin := mergeFinish_frame
    { mergeFieldStep C (mergeTableStep C st (trim line)) with
      result := (mergeFieldStep C (mergeTableStep C st (trim line))).result ++ [line] }
    (countChar '{' line) (countChar '}' line)
  constructor
  · rw [hfin.1]
    simp only
    rw [h2.1, h1.1]
  · intro n hn
    have := hfin.2 n hn
    simp only at this
    exact hct2 n this

theorem mergeLoop_frame (C : List DBMLComment) (Tls : List Text) (ls : List Text)
    (st : MergeState)
    (hsub : ∀ l ∈ ls, l ∈ Tls)
    (hT : ∀ l ∈ Tls, ∀ n, parsedName l = some n → SafeAnchor C Tls n)
    (hct : ∀ n, st.currentTable = some n → SafeAnchor C Tls n) :
    (ls.foldl (mergeLine C) st).result = st.result ++ ls := by
  induction ls generalizing st with
  | nil => simp
  | cons l ls ih =>
    simp only [List.foldl_cons]
    have hlT : l ∈ Tls := hsub l (List.mem_cons_self _ _)
    have hframe := mergeLine_frame C Tls st l (hT l hlT) hlT hct
    rw [ih (mergeLine C st l) (fun l' hl' => hsub l' (List.mem_cons_of_mem _ hl')) hframe.2]
    rw [hframe.1]
    simp

/-- C10 (amended): for every regenerated text `T` and every non-empty comment
list `C` that contains no `header` and no `footer` records, in which no
record's anchored table name equals a name parsed from a table-header line of
`T`, and in which additionally no inline record's dot-joined
`tableName.fieldName` key equals `n ++ "." ++ f` for a table name `n` parsed
from a table-header line of `T` and a field name `f` parsed from a line of
`T`, `mergeComments T C` returns `T` unchanged. -/
theorem merge_unmatched_frame (T : Text) (C : List DBMLComment)
    (hne : C ≠ [])
    (hkinds : ∀ c ∈ C, c.type ≠ CommentType.header ∧ c.type ≠ CommentType.footer)
    (hnames : ∀ c ∈ C, ∀ l ∈ splitNL T,
      parsedName l = none ∨ ctxTableName c ≠ parsedName l)
    (hinline : ∀ c ∈ C, ∀ l ∈ splitNL T, ∀ l2 ∈ splitNL T,
      mkDotKey (parsedName l) (lineFieldName l2) = none ∨
      inlineKeyOf c ≠ mkDotKey (parsedName l) (lineFieldName l2)) :
    mergeComments T C = T := by
  have hsafe : ∀ l ∈ splitNL T, ∀ n, parsedName l = some n → SafeAnchor C (splitNL T) n := by
    intro l hl n hpn
    refine ⟨?_, ?_, ?_⟩
    · simp only [tableTexts]
      rw [show C.filter (fun c => decide (c.type = CommentType.table) &&
          decide (truthyName c = some n)) = [] from ?_]
      · rfl
      · apply List.filter_eq_nil_iff.mpr
        intro c hc hp
        simp only [Bool.and_eq_true, decide_eq_true_eq] at hp
        obtain ⟨hty, htn⟩ := hp
        have hctx : ctxTableName c = some n := jsOrNone_eq_some htn
        rcases hnames c hc l hl with hno | hne2
        · rw [hpn] at hno
          simp at hno
        · apply hne2
          rw [hctx, hpn]
    · simp only [fieldTexts]
      rw [show C.filter (fun c => decide (c.type = CommentType.field) &&
          decide (truthyName c = some n)) = [] from ?_]
      · rfl
      · apply List.filter_eq_nil_iff.mpr
        intro c hc hp
        simp only [Bool.and_eq_true, decide_eq_true_eq] at hp
        obtain ⟨hty, htn⟩ := hp
        have hctx : ctxTableName c = some n := jsOrNone_eq_some htn
        rcases hnames c hc l hl with hno | hne2
        · rw [hpn] at hno
          simp at hno
        · apply hne2
          rw [hctx, hpn]
    · intro l2 hl2 fn hfn
      simp only [inlineGet]
      rw [show C.filter (fun c => decide (c.type = CommentType.inline) &&
          decide (inlineKeyOf c = some (n ++ '.' :: fn))) = [] from ?_]
      · rfl
      · apply List.filter_eq_nil_iff.mpr
        intro c hc hp
        simp only [Bool.and_eq_true, decide_eq_true_eq] at hp
        obtain ⟨hty, hkeq⟩ := hp
        rcases hinline c hc l hl l2 hl2 with hno | hne2
        · rw [show mkDotKey (parsedName l) (lineFieldName l2) = some (n ++ '.' :: fn) from by
            rw [hpn, hfn]; rfl] at hno
          simp at hno
        · apply hne2
          rw [hkeq, hpn, hfn]
          rfl
  have hhead : C.filter (fun c => decide (c.type = CommentType.header)) = [] :=
    List.filter_eq_nil_iff.mpr (fun c hc hp => (hkinds c hc).1 (by simpa using hp))
  have hfoot : C.filter (fun c => decide (c.type = CommentType.footer)) = [] :=
    List.filter_eq_nil_iff.mpr (fun c hc hp => (hkinds c hc).2 (by simpa using hp))
  have hlen0 : ¬ C.length = 0 := fun h => hne (List.length_eq_zero.mp h)
  have hloop := mergeLoop_frame C (splitNL T) (splitNL T)
    { result := ([] : List Text) } (fun l hl => hl) hsafe
    (by intro n hn; simp at hn)
  simp only [mergeComments, hhead, hfoot, List.map_nil]
  rw [if_neg hlen0]
  rw [if_neg (by simp)]
  rw [if_neg (by simp)]
  simp only [List.append_nil]
  rw [hloop]
  simp only [List.nil_append]
  exact joinNL_splitNL T

/-- C10 (counterexample): the claim as stated is false.  The comment list
below is non-empty, contains no header or footer record, and its single
inline record's table name `"a.b"` differs from the only parsed table name
`"a"` of the text — yet `mergeComments` changes the text, because the
record's dot key `a.b` + `.` + `c` collides with table `a`, field `b.c`. -/
theorem merge_unmatched_not_noop :
    ([⟨CommentType.inline, "// sneak".data, some ⟨some "a.b".data, some "c".data⟩⟩] :
      List DBMLComment) ≠ [] ∧
    (∀ c ∈ ([⟨CommentType.inline, "// sneak".data, some ⟨some "a.b".data, some "c".data⟩⟩] :
      List DBMLComment), c.type ≠ CommentType.header ∧ c.type ≠ CommentType.footer) ∧
    (∀ c ∈ ([⟨CommentType.inline, "// sneak".data, some ⟨some "a.b".data, some "c".data⟩⟩] :
      List DBMLComment), ∀ l ∈ splitNL ("Table a \x7b\n\"b.c\" int\n\x7d".data),
      parsedName l = none ∨ ctxTableName c ≠ parsedName l) ∧
    mergeComments ("Table a \x7b\n\"b.c\" int\n\x7d".data)
        [⟨CommentType.inline, "// sneak".data, some ⟨some "a.b".data, some "c".data⟩⟩] ≠
      ("Table a \x7b\n\"b.c\" int\n\x7d".data) := by
  refine ⟨by decide, by decide, by decide, by decide⟩

/-- Witness for the amended C10 at a concrete text and comment list. -/
theorem merge_unmatched_frame_witness :
    mergeComments ("Table a \x7b\n\"x\" int\n\x7d".data)
      [⟨CommentType.inline, "// c".data, some ⟨some "zzz".data, some "w".data⟩⟩] =
      ("Table a \x7b\n\"x\" int\n\x7d".data) :=
  merge_unmatched_frame ("Table a \x7b\n\"x\" int\n\x7d".data)
    [⟨CommentType.inline, "// c".data, some ⟨some "zzz".data, some "w".data⟩⟩]
    (by decide) (by decide) (by decide) (by decide)
